import Mathlib

/-!
Verification of the `fast_vector<T>` container of `fast_vector.h`.

The container is a growable contiguous buffer with three fields:
`m_data` (an owned raw region, or the null pointer), `m_size` (count of
live elements) and `m_capacity` (count of allocated slots).

Shallow embedding used here:

* a memory region is a `List (Option T)`: one entry per allocated slot,
  `none` marking an uninitialized slot, `some x` a slot holding the
  value `x`;
* the null pointer is `Option.none` at the `m_data` level;
* `std::size_t` values are modelled as `Nat` (allocation failure is
  fatal in the source, so astronomic sizes never materialize and
  overflow is out of scope);
* operations that can fault return `Option`: a result of `none` models
  either a write or read outside the allocated region, or a violated
  `assert` (the precondition `new_cap > m_capacity` of `reserve`);
* the trivial-T and non-trivial-T code paths of the source agree on
  every cell below `m_size` (the live cells), which is all that any
  observable behaviour below depends on; where the two paths write
  different junk into dead cells, the doc comment of the definition
  says which branch is modelled.
-/

/-- An allocated memory region: one entry per allocated slot; `none` is an
uninitialized slot. -/
abbrev Region (T : Type) := List (Option T)

/-- Read the cell at offset `i` of a region; a read outside the region is
returned as an uninitialized (junk) cell. -/
def cellAt {T : Type} (r : Region T) (i : Nat) : Option T :=
  (r[i]?).getD none

/-- `realloc(p, n*sizeof(T))` on a region (also `malloc` + `memcpy` of the
first `n` cells, which produces the same cells): the first `n` old cells are
preserved, any slot beyond the old length is uninitialized.  The result has
exactly `n` slots. -/
def realloc_region {T : Type} (r : Region T) (n : Nat) : Region T :=
  r.take n ++ List.replicate (n - r.length) none

/-- Helper `find_item(begin, end, value)` of `fast_vector.h`: linear scan
from the front over the live cells, returning the offset of the first cell
holding `value`, or the length of the scanned range when there is none
(i.e. the `end` pointer). -/
def find_item {T : Type} [DecidableEq T] (a : T) : List (Option T) → Nat
  | [] => 0
  | c :: rest => if c = some a then 0 else find_item a rest + 1

/-- One iteration of the fill loops `construct_range` / `destruct_range` of
`fast_vector.h`: write the cell `c` into the `k` slots starting at offset
`a`. -/
def fill_range {T : Type} (r : Region T) (a : Nat) (k : Nat) (c : Option T) :
    Region T :=
  match k with
  | 0 => r
  | Nat.succ k => fill_range (r.set a c) (a + 1) k c

/-- Helper `construct_range(begin, end)` of `fast_vector.h`: placement
default-construction of the `k` slots starting at offset `a` (the
non-trivial-T branch; for trivial T the source runs no constructor and the
slots keep junk). -/
def construct_range {T : Type} [Inhabited T] (r : Region T) (a k : Nat) :
    Region T :=
  fill_range r a k (some default)

/-- Helper `destruct_range(begin, end)` of `fast_vector.h`: destruct the `k`
slots starting at offset `a`, after which they are uninitialized again. -/
def destruct_range {T : Type} (r : Region T) (a k : Nat) : Region T :=
  fill_range r a k none

/-- Helper `copy_range(begin, end, dest)` of `fast_vector.h` (also the
`memcpy` of the trivial branch), writing the values `xs` into the region
starting at offset `off`.  Each write is bounds-checked: writing past the
allocated region is a modelled fault and yields `none`. -/
def copy_range {T : Type} (r : Region T) (off : Nat) : List T → Option (Region T)
  | [] => some r
  | x :: xs =>
      if off < r.length then copy_range (r.set off (some x)) (off + 1) xs
      else none

/-- `memcpy(position, position + 1, count*sizeof(T))` as the shift of
`fast_vector<T>::erase` performs it for trivial T: a forward cell-by-cell
copy moving each of the `k` cells after offset `pos` down one slot
(the regions overlap with destination below source, so the forward copy is
the intended bulk shift). -/
def shift_down {T : Type} (r : Region T) (pos : Nat) : Nat → Region T
  | 0 => r
  | Nat.succ k => shift_down (r.set pos (cellAt r (pos + 1))) (pos + 1) k

/-- `fast_vector<T>` of `fast_vector.h`: the owned region (`none` models the
null pointer), the live-element count `m_size` and the allocated-slot count
`m_capacity`. -/
structure fast_vector (T : Type) : Type where
  m_data : Option (Region T)
  m_size : Nat
  m_capacity : Nat
deriving DecidableEq

/-- `static constexpr size_type grow_factor = 2`. -/
def fast_vector.grow_factor : Nat := 2

/-- The default constructor `fast_vector() = default`: member initializers
`m_data = nullptr`, `m_size = 0`, `m_capacity = 0`. -/
def fast_vector.init {T : Type} : fast_vector T :=
  { m_data := none, m_size := 0, m_capacity := 0 }

/-- The region behind `m_data` (empty for the null pointer). -/
def fast_vector.regionOf {T : Type} (v : fast_vector T) : Region T :=
  v.m_data.getD []

/-- `size()`. -/
def fast_vector.size {T : Type} (v : fast_vector T) : Nat := v.m_size

/-- `capacity()`. -/
def fast_vector.capacity {T : Type} (v : fast_vector T) : Nat := v.m_capacity

/-- The cells a caller sees when iterating `begin()..end()`: the first
`m_size` slots of the region. -/
def fast_vector.cells {T : Type} (v : fast_vector T) : List (Option T) :=
  v.regionOf.take v.m_size

/-- The class invariant of `fast_vector`: no more live elements than
capacity, the allocated region really has `m_capacity` slots (the null
pointer only with capacity `0`), and every live cell is initialized. -/
def fast_vector.wf {T : Type} (v : fast_vector T) : Prop :=
  v.m_size ≤ v.m_capacity ∧ v.regionOf.length = v.m_capacity ∧
    v.cells.all Option.isSome = true

instance fast_vector.wfDecidable {T : Type} (v : fast_vector T) :
    Decidable v.wf :=
  inferInstanceAs (Decidable (v.m_size ≤ v.m_capacity ∧
    v.regionOf.length = v.m_capacity ∧ v.cells.all Option.isSome = true))

/-- `reserve(new_cap)`: `assert(new_cap > m_capacity)` (modelled as the
`none` result), then for trivial T `realloc` preserving the old bytes; the
non-trivial branch instead copies exactly the live cells `[0, m_size)` into
a fresh region, which yields the same region up to junk in dead slots.
`m_size` is unchanged, `m_capacity` becomes `new_cap`. -/
def fast_vector.reserve {T : Type} (v : fast_vector T) (new_cap : Nat) :
    Option (fast_vector T) :=
  if v.m_capacity < new_cap then
    some { m_data := some (realloc_region v.regionOf new_cap),
           m_size := v.m_size, m_capacity := new_cap }
  else none

/-- `shrink_to_fit()`: when `0 < m_size < m_capacity` the region is
reallocated to exactly `m_size` slots — but the source never assigns
`m_capacity`, which therefore keeps its old value. -/
def fast_vector.shrink_to_fit {T : Type} (v : fast_vector T) : fast_vector T :=
  if 0 < v.m_size ∧ v.m_size < v.m_capacity then
    { v with m_data := some (realloc_region v.regionOf v.m_size) }
  else v

/-- `push_back(value)` (both overloads place the same value): grow by
`m_capacity * grow_factor + 1` when full, then write the value into slot
`m_size` and increment `m_size`.  A write outside the allocated region (or
through the null pointer) is a modelled fault. -/
def fast_vector.push_back {T : Type} (v : fast_vector T) (x : T) :
    Option (fast_vector T) :=
  (if v.m_size = v.m_capacity then
      v.reserve (v.m_capacity * fast_vector.grow_factor + 1)
    else some v).bind fun w =>
    match w.m_data with
    | some r =>
        if w.m_size < r.length then
          some { w with m_data := some (r.set w.m_size (some x)),
                        m_size := w.m_size + 1 }
        else none
    | none => none

/-- `emplace_back(args...)` (non-trivial T only): the element constructed
in place from `args` is modelled by its resulting value `x`; the growth
trigger and the write are exactly those of `push_back`. -/
def fast_vector.emplace_back {T : Type} (v : fast_vector T) (x : T) :
    Option (fast_vector T) :=
  (if v.m_size = v.m_capacity then
      v.reserve (v.m_capacity * fast_vector.grow_factor + 1)
    else some v).bind fun w =>
    match w.m_data with
    | some r =>
        if w.m_size < r.length then
          some { w with m_data := some (r.set w.m_size (some x)),
                        m_size := w.m_size + 1 }
        else none
    | none => none

/-- The `for` loop of `append` on the slow path: `push_back(values[i])` for
each `i` in order. -/
def fast_vector.push_back_loop {T : Type} (v : fast_vector T) :
    List T → Option (fast_vector T)
  | [] => some v
  | x :: xs => (v.push_back x).bind fun w => w.push_back_loop xs

/-- `append(values, count)`: when `m_size + count >= m_capacity` the source
falls back to one `push_back` per element (growing as needed); otherwise it
bulk-copies the `count` values to the tail (`memcpy` for trivial T,
`copy_range` otherwise) and adds `count` to `m_size`. -/
def fast_vector.append {T : Type} (v : fast_vector T) (values : List T) :
    Option (fast_vector T) :=
  if v.m_capacity ≤ v.m_size + values.length then
    v.push_back_loop values
  else
    match v.m_data with
    | some r =>
        (copy_range r v.m_size values).map fun r2 =>
          { v with m_data := some r2, m_size := v.m_size + values.length }
    | none => none

/-- `erase(value)` (trivial-T path: the non-trivial branch of the source,
`copy_range(position, position + 1, count)`, does not even instantiate — a
`size_t` is passed where the `dest` pointer is expected): find the first
live cell equal to `value`; if there is one, shift every later live cell
down one slot with the overlapping `memcpy` and decrement `m_size`;
otherwise return the buffer unchanged. -/
def fast_vector.erase {T : Type} [DecidableEq T] (v : fast_vector T) (a : T) :
    fast_vector T :=
  let pos := find_item a v.cells
  if pos < v.m_size then
    let r := v.regionOf
    let r2 := if pos < v.m_size - 1 then shift_down r pos (v.m_size - 1 - pos)
              else r
    { v with m_data := some r2, m_size := v.m_size - 1 }
  else v

/-- `resize(count)`: no-op when `count == m_size`; `reserve(count)` when
`count > m_capacity`; then (non-trivial T) default-construct the slots
`[m_size, count)` when growing or destruct the slots `[count, m_size)` when
shrinking, and set `m_size = count`.  (For trivial T the source leaves the
newly exposed slots as junk instead.) -/
def fast_vector.resize {T : Type} [Inhabited T] (v : fast_vector T)
    (count : Nat) : Option (fast_vector T) :=
  if count = v.m_size then some v
  else
    (if v.m_capacity < count then v.reserve count else some v).bind fun w =>
      match w.m_data with
      | some r =>
          let r2 :=
            if w.m_size < count then construct_range r w.m_size (count - w.m_size)
            else if count < w.m_size then destruct_range r count (w.m_size - count)
            else r
          some { w with m_data := some r2, m_size := count }
      | none => none

/-- `at(pos)`: `throw std::range_error{"Position is out of range"}` when
`pos >= m_size` (a catchable error, modelled as `Except.error`), otherwise
the reference `m_data[pos]`, returned as the cell read at offset `pos`.
The buffer itself is not touched. -/
def fast_vector.at? {T : Type} (v : fast_vector T) (pos : Nat) :
    Except String (Option T) :=
  if v.m_size ≤ pos then Except.error "Position is out of range"
  else Except.ok (cellAt v.regionOf pos)

/-- The copy constructor: a fresh region of exactly `other.m_size` slots is
allocated and the first `m_size` cells of the source are copied (`memcpy`
for trivial T, `copy_range` over the live cells otherwise — identical
cells); both `m_size` and `m_capacity` of the copy are `other.m_size`.  The
source is `const`: it is left untouched. -/
def fast_vector.copy_construct {T : Type} (other : fast_vector T) :
    fast_vector T :=
  { m_data := some (realloc_region other.regionOf other.m_size),
    m_size := other.m_size, m_capacity := other.m_size }

/-- `operator=(const fast_vector&)`: exactly the fields the copy
constructor produces (the old region of the destination is simply
abandoned by the source code). -/
def fast_vector.copy_assign {T : Type} (_dest other : fast_vector T) :
    fast_vector T :=
  { m_data := some (realloc_region other.regionOf other.m_size),
    m_size := other.m_size, m_capacity := other.m_size }

/-- The move constructor, returning `(destination, source-afterwards)`: the
destination takes `m_data`, `m_size` and `m_capacity` of the source; only
`other.m_data = nullptr` is assigned on the source — the source keeps its
`m_size` and `m_capacity`. -/
def fast_vector.move_construct {T : Type} (other : fast_vector T) :
    fast_vector T × fast_vector T :=
  ({ m_data := other.m_data, m_size := other.m_size,
     m_capacity := other.m_capacity },
   { m_data := none, m_size := other.m_size, m_capacity := other.m_capacity })

/-- `operator=(fast_vector&&)`, returning `(destination, source-afterwards)`:
the source code assigns `m_data = other.m_data; m_size = other.m_size;
m_capacity = other.m_size;` — the destination capacity is set to the
size, not the capacity, of the source — and then only nulls
`other.m_data`. -/
def fast_vector.move_assign {T : Type} (_dest other : fast_vector T) :
    fast_vector T × fast_vector T :=
  ({ m_data := other.m_data, m_size := other.m_size,
     m_capacity := other.m_size },
   { m_data := none, m_size := other.m_size, m_capacity := other.m_capacity })

/-- The destructor: the cells it destructs (for non-trivial T) — nothing at
all through a null `m_data`, the live cells otherwise. -/
def fast_vector.dtor_destructs {T : Type} (v : fast_vector T) :
    List (Option T) :=
  match v.m_data with
  | none => []
  | some r => r.take v.m_size

/-! ### Region lemmas -/

theorem length_realloc_region {T : Type} (r : Region T) (n : Nat) :
    (realloc_region r n).length = n := by
  simp [realloc_region]
  omega

theorem take_realloc_region {T : Type} (r : Region T) {n m : Nat}
    (h1 : m ≤ n) (h2 : m ≤ r.length) :
    (realloc_region r n).take m = r.take m := by
  rw [realloc_region, List.take_append_of_le_length (by simp; omega),
    List.take_take, Nat.min_eq_left h1]

theorem take_set_succ {α : Type} (l : List α) (m : Nat) (c : α)
    (h : m < l.length) : (l.set m c).take (m + 1) = l.take m ++ [c] := by
  rw [List.set_eq_take_cons_drop c h,
    List.take_append_eq_append_take, List.take_take]
  have hlt : (List.take m l).length = m := List.length_take_of_le (by omega)
  rw [hlt, Nat.min_eq_right (by omega)]
  have : m + 1 - m = 1 := by omega
  rw [this]
  rfl

/-! ### Invariant and cells lemmas -/

theorem fast_vector.cells_length {T : Type} {v : fast_vector T} (h : v.wf) :
    v.cells.length = v.m_size := by
  obtain ⟨h1, h2, _⟩ := h
  simp [fast_vector.cells]
  omega

theorem fast_vector.cells_isSome {T : Type} {v : fast_vector T} (h : v.wf) :
    ∀ c ∈ v.cells, c.isSome := by
  obtain ⟨-, -, h3⟩ := h
  simpa using h3

theorem fast_vector.wf_init {T : Type} : (fast_vector.init : fast_vector T).wf := by
  refine ⟨Nat.le_refl 0, rfl, rfl⟩

/-! ### `reserve` -/

theorem fast_vector.reserve_spec {T : Type} {v : fast_vector T} {n : Nat}
    (h : v.wf) (hn : v.m_capacity < n) :
    ∃ w, v.reserve n = some w ∧ w.wf ∧ w.cells = v.cells ∧
      w.m_size = v.m_size ∧ w.m_capacity = n ∧
      w.regionOf.length = n ∧ w.m_data = some w.regionOf := by
  obtain ⟨h1, h2, h3⟩ := h
  have hc : fast_vector.cells
      { m_data := some (realloc_region v.regionOf n),
        m_size := v.m_size, m_capacity := n } = v.cells := by
    show (realloc_region v.regionOf n).take v.m_size = v.cells
    exact take_realloc_region _ (by omega) (by omega)
  refine ⟨{ m_data := some (realloc_region v.regionOf n),
            m_size := v.m_size, m_capacity := n },
    by rw [fast_vector.reserve, if_pos hn], ?_, hc, rfl, rfl, ?_, rfl⟩
  · exact ⟨le_of_lt (lt_of_le_of_lt h1 hn), length_realloc_region _ _,
      by rw [hc]; exact h3⟩
  · exact length_realloc_region _ _

theorem fast_vector.m_data_eq_some {T : Type} {v : fast_vector T}
    (h2 : v.regionOf.length = v.m_capacity) (hpos : 0 < v.m_capacity) :
    v.m_data = some v.regionOf := by
  cases hd : v.m_data with
  | none =>
      exfalso
      simp only [fast_vector.regionOf, hd, Option.getD_none,
        List.length_nil] at h2
      omega
  | some r => simp [fast_vector.regionOf, hd]

/-! ### `push_back` -/

theorem fast_vector.push_back_spec {T : Type} {v : fast_vector T} (x : T)
    (h : v.wf) :
    ∃ w, v.push_back x = some w ∧ w.wf ∧ w.cells = v.cells ++ [some x] ∧
      w.m_size = v.m_size + 1 ∧ v.m_capacity ≤ w.m_capacity := by
  obtain ⟨w0, hw0, hwf0, hc0, hs0, hcap0, hlt0, hdata0⟩ :
      ∃ w0, (if v.m_size = v.m_capacity then
          v.reserve (v.m_capacity * fast_vector.grow_factor + 1)
        else some v) = some w0 ∧ w0.wf ∧ w0.cells = v.cells ∧
        w0.m_size = v.m_size ∧ v.m_capacity ≤ w0.m_capacity ∧
        w0.m_size < w0.regionOf.length ∧ w0.m_data = some w0.regionOf := by
    by_cases hfull : v.m_size = v.m_capacity
    · rw [if_pos hfull]
      have hn : v.m_capacity < v.m_capacity * fast_vector.grow_factor + 1 := by
        show v.m_capacity < v.m_capacity * 2 + 1
        omega
      obtain ⟨w0, heq, hwf0, hc0, hs0, hcap0, hlen, hdata⟩ :=
        fast_vector.reserve_spec h hn
      have h1 := h.1
      refine ⟨w0, heq, hwf0, hc0, hs0, by omega, by
        show w0.m_size < w0.regionOf.length
        omega, hdata⟩
    · rw [if_neg hfull]
      obtain ⟨h1, h2, h3⟩ := h
      have hlt : v.m_size < v.m_capacity := lt_of_le_of_ne h1 hfull
      exact ⟨v, rfl, ⟨h1, h2, h3⟩, rfl, rfl, le_refl _, by omega,
        fast_vector.m_data_eq_some h2 (by omega)⟩
  have hpb : v.push_back x = some
      { w0 with m_data := some (w0.regionOf.set w0.m_size (some x)),
                m_size := w0.m_size + 1 } := by
    simp only [fast_vector.push_back]
    rw [hw0, Option.some_bind, hdata0]
    simp [hlt0]
  have h2' := hwf0.2.1
  have hcells : fast_vector.cells
      { w0 with m_data := some (w0.regionOf.set w0.m_size (some x)),
                m_size := w0.m_size + 1 } = v.cells ++ [some x] := by
    show (w0.regionOf.set w0.m_size (some x)).take (w0.m_size + 1)
        = v.cells ++ [some x]
    rw [take_set_succ _ _ _ hlt0]
    rw [show w0.regionOf.take w0.m_size = w0.cells from rfl, hc0]
  refine ⟨_, hpb, ⟨?_, ?_, ?_⟩, hcells, by show w0.m_size + 1 = v.m_size + 1; omega,
    by show v.m_capacity ≤ w0.m_capacity; omega⟩
  · show w0.m_size + 1 ≤ w0.m_capacity
    omega
  · show (w0.regionOf.set w0.m_size (some x)).length = w0.m_capacity
    rw [List.length_set]
    omega
  · show (fast_vector.cells _).all Option.isSome = true
    rw [hcells, List.all_append]
    have h3 := h.2.2
    simp only [h3, List.all_cons, List.all_nil, Option.isSome_some,
      Bool.and_self, Bool.true_and]

theorem fast_vector.emplace_back_eq_push_back {T : Type} (v : fast_vector T)
    (x : T) : v.emplace_back x = v.push_back x := rfl

theorem fast_vector.push_back_loop_spec {T : Type} {v : fast_vector T}
    (xs : List T) (h : v.wf) :
    ∃ w, v.push_back_loop xs = some w ∧ w.wf ∧
      w.cells = v.cells ++ xs.map some ∧
      w.m_size = v.m_size + xs.length ∧ v.m_capacity ≤ w.m_capacity := by
  induction xs generalizing v with
  | nil => exact ⟨v, rfl, h, by simp, rfl, le_refl _⟩
  | cons x xs ih =>
      obtain ⟨w1, hw1, hwf1, hc1, hs1, hcap1⟩ := fast_vector.push_back_spec x h
      obtain ⟨w2, hw2, hwf2, hc2, hs2, hcap2⟩ := ih hwf1
      refine ⟨w2, ?_, hwf2, ?_, by simp; omega, by omega⟩
      · show (v.push_back x).bind _ = some w2
        rw [hw1, Option.some_bind, hw2]
      · rw [hc2, hc1]
        simp

/-! ### `append` -/

theorem copy_range_spec {T : Type} :
    ∀ (xs : List T) (r : Region T) (off : Nat), off + xs.length ≤ r.length →
    ∃ r2, copy_range r off xs = some r2 ∧ r2.length = r.length ∧
      r2.take (off + xs.length) = r.take off ++ xs.map some
  | [], r, off, _ => ⟨r, rfl, rfl, by simp⟩
  | x :: xs, r, off, h => by
      have hoff : off < r.length := by
        simp only [List.length_cons] at h
        omega
      obtain ⟨r2, hr2, hlen, htake⟩ :=
        copy_range_spec xs (r.set off (some x)) (off + 1)
          (by rw [List.length_set]; simp only [List.length_cons] at h; omega)
      refine ⟨r2, ?_, by rw [hlen, List.length_set], ?_⟩
      · show copy_range r off (x :: xs) = some r2
        rw [copy_range, if_pos hoff]
        exact hr2
      · rw [List.length_set] at hlen
        have hidx : off + (x :: xs).length = off + 1 + xs.length := by
          simp only [List.length_cons]
          omega
        rw [hidx, htake, take_set_succ _ _ _ hoff]
        simp

theorem fast_vector.append_spec {T : Type} {v : fast_vector T} (ys : List T)
    (h : v.wf) :
    ∃ w, v.append ys = some w ∧ w.wf ∧ w.cells = v.cells ++ ys.map some ∧
      w.m_size = v.m_size + ys.length ∧ v.m_size + ys.length ≤ w.m_capacity := by
  by_cases hcap : v.m_capacity ≤ v.m_size + ys.length
  · obtain ⟨w, hw, hwf, hc, hs, _⟩ := fast_vector.push_back_loop_spec ys h
    refine ⟨w, ?_, hwf, hc, hs, ?_⟩
    · rw [fast_vector.append, if_pos hcap]
      exact hw
    · have := hwf.1
      omega
  · obtain ⟨h1, h2, h3⟩ := h
    have hdata := fast_vector.m_data_eq_some h2 (by omega)
    obtain ⟨r2, hr2, hlen, htake⟩ :=
      copy_range_spec ys v.regionOf v.m_size (by omega)
    have hcells : fast_vector.cells
        { v with m_data := some r2, m_size := v.m_size + ys.length }
        = v.cells ++ ys.map some := by
      show r2.take (v.m_size + ys.length) = v.cells ++ ys.map some
      rw [htake]
      rfl
    refine ⟨{ v with m_data := some r2, m_size := v.m_size + ys.length },
      ?_, ⟨?_, ?_, ?_⟩, hcells, rfl, by show v.m_size + ys.length ≤ v.m_capacity; omega⟩
    · rw [fast_vector.append, if_neg hcap, hdata]
      simp [hr2]
    · show v.m_size + ys.length ≤ v.m_capacity
      omega
    · show r2.length = v.m_capacity
      omega
    · show (fast_vector.cells _).all Option.isSome = true
      have hys : (List.map some ys).all Option.isSome = true := by
        simp
      rw [hcells, List.all_append, h3, hys]
      rfl

/-! ### `erase` -/

theorem cellAt_of_lt {T : Type} (r : Region T) (j : Nat) (hj : j < r.length) :
    r[j]? = some (cellAt r j) := by
  simp [cellAt, List.getElem?_eq_getElem hj]

theorem fast_vector.cells_getElem? {T : Type} (v : fast_vector T) (j : Nat)
    (hj : j < v.m_size) : v.cells[j]? = v.regionOf[j]? := by
  show (v.regionOf.take v.m_size)[j]? = v.regionOf[j]?
  exact List.getElem?_take_of_lt hj

theorem find_item_of_not_mem {T : Type} [DecidableEq T] {xs : List T} {a : T}
    (h : a ∉ xs) : find_item a (xs.map some) = xs.length := by
  induction xs with
  | nil => rfl
  | cons x xs ih =>
      have hx : ¬(some x = some a) := by
        intro e
        exact h (by simp at e; simp [e])
      rw [List.map_cons, find_item, if_neg hx,
        ih (fun m => h (List.mem_cons_of_mem _ m)), List.length_cons]

theorem find_item_of_first {T : Type} [DecidableEq T] (ys zs : List T) (a : T)
    (h : a ∉ ys) : find_item a ((ys ++ a :: zs).map some) = ys.length := by
  induction ys with
  | nil => simp [find_item]
  | cons y ys ih =>
      have hy : ¬(some y = some a) := by
        intro e
        exact h (by simp at e; simp [e])
      rw [List.cons_append, List.map_cons, find_item, if_neg hy,
        ih (fun m => h (List.mem_cons_of_mem _ m)), List.length_cons]

theorem shift_down_length {T : Type} :
    ∀ (k : Nat) (r : Region T) (pos : Nat),
    (shift_down r pos k).length = r.length
  | 0, _, _ => rfl
  | Nat.succ k, r, pos => by
      show (shift_down (r.set pos (cellAt r (pos + 1))) (pos + 1) k).length
        = r.length
      rw [shift_down_length k, List.length_set]

theorem shift_down_getElem? {T : Type} :
    ∀ (k : Nat) (r : Region T) (pos : Nat), pos + k < r.length → ∀ j : Nat,
    (shift_down r pos k)[j]? =
      if pos ≤ j ∧ j < pos + k then r[j + 1]? else r[j]?
  | 0, r, pos, _, j => by
      show r[j]? = _
      rw [if_neg (by omega)]
  | Nat.succ k, r, pos, h, j => by
      show (shift_down (r.set pos (cellAt r (pos + 1))) (pos + 1) k)[j]? = _
      have hlen : pos + 1 + k < (r.set pos (cellAt r (pos + 1))).length := by
        rw [List.length_set]
        omega
      rw [shift_down_getElem? k _ (pos + 1) hlen j]
      by_cases hA : pos + 1 ≤ j ∧ j < pos + 1 + k
      · rw [if_pos hA, List.getElem?_set, if_neg (by omega), if_pos (by omega)]
      · rw [if_neg hA, List.getElem?_set]
        by_cases hC : pos = j
        · rw [if_pos hC, if_pos (by omega), if_pos (by omega), ← hC,
            cellAt_of_lt r (pos + 1) (by omega)]
        · rw [if_neg hC, if_neg (by omega)]

/-- `erase` written out: the found test, the conditional overlapping shift,
the size decrement. -/
theorem fast_vector.erase_eq {T : Type} [DecidableEq T] (v : fast_vector T)
    (a : T) :
    v.erase a = if find_item a v.cells < v.m_size then
      { v with m_data := some (if find_item a v.cells < v.m_size - 1 then shift_down v.regionOf (find_item a v.cells) (v.m_size - 1 - find_item a v.cells) else v.regionOf), m_size := v.m_size - 1 }
    else v := rfl

theorem fast_vector.erase_spec {T : Type} [DecidableEq T]
    {v : fast_vector T} {xs : List T} (a : T)
    (h : v.wf) (hc : v.cells = xs.map some) :
    (v.erase a).m_capacity = v.m_capacity ∧
    (a ∉ xs → v.erase a = v) ∧
    ∀ ys zs, xs = ys ++ a :: zs → a ∉ ys →
      (v.erase a).cells = (ys ++ zs).map some ∧
      (v.erase a).m_size = v.m_size - 1 ∧ (v.erase a).wf := by
  obtain ⟨h1, h2, h3⟩ := h
  have hcl : v.cells.length = v.m_size := by
    show (v.regionOf.take v.m_size).length = v.m_size
    rw [List.length_take]
    omega
  have hxl : xs.length = v.m_size := by
    rw [hc] at hcl
    simpa using hcl
  refine ⟨?_, ?_, ?_⟩
  · rw [fast_vector.erase_eq]
    split
    · rfl
    · rfl
  · intro hmem
    have hfi : find_item a v.cells = v.m_size := by
      rw [hc, find_item_of_not_mem hmem, hxl]
    rw [fast_vector.erase_eq, hfi, if_neg (lt_irrefl _)]
  · intro ys zs hxs hnys
    have hfi : find_item a v.cells = ys.length := by
      rw [hc, hxs]
      exact find_item_of_first ys zs a hnys
    have hys_lt : ys.length < v.m_size := by
      rw [hxs] at hxl
      simp only [List.length_append, List.length_cons] at hxl
      omega
    have hzs_len : ys.length + 1 + zs.length = v.m_size := by
      rw [hxs] at hxl
      simp only [List.length_append, List.length_cons] at hxl
      omega
    have hr2 : v.erase a = { v with
        m_data := some (shift_down v.regionOf ys.length
          (v.m_size - 1 - ys.length)),
        m_size := v.m_size - 1 } := by
      by_cases hin : ys.length < v.m_size - 1
      · rw [fast_vector.erase_eq, hfi, if_pos hys_lt, if_pos hin]
      · rw [fast_vector.erase_eq, hfi, if_pos hys_lt, if_neg hin]
        have hz : v.m_size - 1 - ys.length = 0 := by omega
        rw [hz]
        rfl
    have hbound : ys.length + (v.m_size - 1 - ys.length) < v.regionOf.length := by
      omega
    have hsd := shift_down_getElem? (v.m_size - 1 - ys.length) v.regionOf
      ys.length hbound
    have hsd_len : (shift_down v.regionOf ys.length
        (v.m_size - 1 - ys.length)).length = v.regionOf.length :=
      shift_down_length _ _ _
    have hrj : ∀ j, j < v.m_size → v.regionOf[j]? = (xs.map some)[j]? := by
      intro j hj
      rw [← fast_vector.cells_getElem? v j hj, hc]
    have hcells2 : (v.erase a).cells = (ys ++ zs).map some := by
      rw [hr2]
      show (shift_down v.regionOf ys.length
        (v.m_size - 1 - ys.length)).take (v.m_size - 1) = (ys ++ zs).map some
      apply List.ext_getElem?
      intro j
      rw [List.getElem?_take]
      by_cases hj : j < v.m_size - 1
      · rw [if_pos hj, hsd j]
        by_cases hji : j < ys.length
        · rw [if_neg (by omega), hrj j (by omega), hxs, List.map_append,
            List.getElem?_append_left (by simp; omega), List.map_append,
            List.getElem?_append_left (by simp; omega)]
        · rw [if_pos (by omega), hrj (j + 1) (by omega), hxs, List.map_append,
            List.getElem?_append_right (by simp; omega), List.map_append,
            List.getElem?_append_right (by simp; omega)]
          simp only [List.length_map, List.map_cons]
          have hidx : j + 1 - ys.length = (j - ys.length) + 1 := by omega
          rw [hidx, List.getElem?_cons_succ]
      · rw [if_neg hj, Eq.comm]
        apply List.getElem?_eq_none
        simp only [List.length_map, List.length_append]
        omega
    have hwf2 : (v.erase a).wf := by
      refine ⟨?_, ?_, ?_⟩
      · rw [hr2]
        show v.m_size - 1 ≤ v.m_capacity
        omega
      · rw [hr2]
        show (shift_down v.regionOf ys.length
          (v.m_size - 1 - ys.length)).length = v.m_capacity
        omega
      · rw [hcells2]
        simp
    exact ⟨hcells2, by rw [hr2], hwf2⟩

/-! ### `resize` -/

theorem fill_range_length {T : Type} :
    ∀ (k : Nat) (r : Region T) (a : Nat) (c : Option T),
    (fill_range r a k c).length = r.length
  | 0, _, _, _ => rfl
  | Nat.succ k, r, a, c => by
      show (fill_range (r.set a c) (a + 1) k c).length = r.length
      rw [fill_range_length k, List.length_set]

theorem fill_range_getElem? {T : Type} :
    ∀ (k : Nat) (r : Region T) (a : Nat) (c : Option T),
    a + k ≤ r.length → ∀ j : Nat,
    (fill_range r a k c)[j]? = if a ≤ j ∧ j < a + k then some c else r[j]?
  | 0, r, a, c, _, j => by
      show r[j]? = _
      rw [if_neg (by omega)]
  | Nat.succ k, r, a, c, h, j => by
      show (fill_range (r.set a c) (a + 1) k c)[j]? = _
      have hlen : a + 1 + k ≤ (r.set a c).length := by
        rw [List.length_set]
        omega
      rw [fill_range_getElem? k _ (a + 1) c hlen j, List.getElem?_set]
      by_cases hA : a + 1 ≤ j ∧ j < a + 1 + k
      · rw [if_pos hA, if_pos (by omega)]
      · rw [if_neg hA]
        by_cases hC : a = j
        · rw [if_pos hC, if_pos (by omega), if_pos (by omega)]
        · rw [if_neg hC, if_neg (by omega)]

theorem fast_vector.resize_spec {T : Type} [Inhabited T] {v : fast_vector T}
    (k : Nat) (h : v.wf) :
    ∃ w, v.resize k = some w ∧ w.wf ∧ w.m_size = k ∧ k ≤ w.m_capacity ∧
      v.m_capacity ≤ w.m_capacity ∧ (k = v.m_size → w = v) ∧
      w.cells = v.cells.take k ++ List.replicate (k - v.m_size) (some default) := by
  have hcl : v.cells.length = v.m_size := fast_vector.cells_length h
  obtain ⟨h1, h2, h3⟩ := h
  by_cases hk : k = v.m_size
  · refine ⟨v, ?_, ⟨h1, h2, h3⟩, hk.symm, by omega, le_refl _, fun _ => rfl, ?_⟩
    · rw [fast_vector.resize, if_pos hk]
    · rw [hk, Nat.sub_self, List.replicate_zero, List.append_nil,
        List.take_of_length_le (le_of_eq hcl)]
  · obtain ⟨w0, hw0, hwf0, hc0, hs0, hcap0, hk0, hdata0⟩ :
        ∃ w0, (if v.m_capacity < k then v.reserve k else some v) = some w0 ∧
          w0.wf ∧ w0.cells = v.cells ∧ w0.m_size = v.m_size ∧
          v.m_capacity ≤ w0.m_capacity ∧ k ≤ w0.m_capacity ∧
          w0.m_data = some w0.regionOf := by
      by_cases hgrow : v.m_capacity < k
      · rw [if_pos hgrow]
        obtain ⟨w0, heq, hwf0, hc0, hs0, hcap0, hlen, hdata⟩ :=
          fast_vector.reserve_spec ⟨h1, h2, h3⟩ hgrow
        exact ⟨w0, heq, hwf0, hc0, hs0, by omega, by omega, hdata⟩
      · rw [if_neg hgrow]
        have hcpos : 0 < v.m_capacity := by omega
        exact ⟨v, rfl, ⟨h1, h2, h3⟩, rfl, rfl, le_refl _, by omega,
          fast_vector.m_data_eq_some h2 hcpos⟩
    have hw2 := hwf0.2.1
    have hw1 := hwf0.1
    have hres : v.resize k = some { w0 with
        m_data := some (if w0.m_size < k then
            construct_range w0.regionOf w0.m_size (k - w0.m_size)
          else if k < w0.m_size then
            destruct_range w0.regionOf k (w0.m_size - k)
          else w0.regionOf),
        m_size := k } := by
      rw [fast_vector.resize, if_neg hk, hw0, Option.some_bind, hdata0]
    by_cases hgt : w0.m_size < k
    · have hfill := fill_range_getElem? (k - w0.m_size) w0.regionOf w0.m_size
        (some default) (by omega)
      have hr2 : (if w0.m_size < k then
            construct_range w0.regionOf w0.m_size (k - w0.m_size)
          else if k < w0.m_size then
            destruct_range w0.regionOf k (w0.m_size - k)
          else w0.regionOf)
          = fill_range w0.regionOf w0.m_size (k - w0.m_size) (some default) := by
        rw [if_pos hgt]
        rfl
      rw [hr2] at hres
      have hcells2 : (fill_range w0.regionOf w0.m_size (k - w0.m_size)
          (some default)).take k
          = v.cells.take k ++ List.replicate (k - v.m_size) (some default) := by
        have htk : v.cells.take k = v.cells :=
          List.take_of_length_le (by omega)
        rw [htk]
        apply List.ext_getElem?
        intro j
        rw [List.getElem?_take]
        by_cases hj : j < k
        · rw [if_pos hj, hfill j]
          by_cases hji : j < v.m_size
          · rw [if_neg (by omega), ← fast_vector.cells_getElem? w0 j (by omega),
              hc0, List.getElem?_append_left (by omega)]
          · rw [if_pos (by omega), List.getElem?_append_right (by omega),
              hcl, List.getElem?_replicate, if_pos (by omega)]
        · rw [if_neg hj, Eq.comm]
          apply List.getElem?_eq_none
          simp only [List.length_append, List.length_replicate]
          omega
      refine ⟨_, hres, ⟨?_, ?_, ?_⟩, rfl, by show k ≤ w0.m_capacity; omega,
        by show v.m_capacity ≤ w0.m_capacity; omega,
        fun he => absurd he hk, ?_⟩
      · show k ≤ w0.m_capacity
        omega
      · show (fill_range w0.regionOf w0.m_size (k - w0.m_size)
          (some default)).length = w0.m_capacity
        rw [fill_range_length]
        omega
      · show ((fill_range w0.regionOf w0.m_size (k - w0.m_size)
          (some default)).take k).all Option.isSome = true
        have htake_all : (List.take k v.cells).all Option.isSome = true :=
          List.all_eq_true.mpr fun c hcmem =>
            List.all_eq_true.mp h3 c (List.take_subset _ _ hcmem)
        have hrep_all : (List.replicate (k - v.m_size)
            (some (default : T))).all Option.isSome = true := by
          simp
        rw [hcells2, List.all_append, htake_all, hrep_all]
        rfl
      · exact hcells2
    · have hlt : k < w0.m_size := by omega
      have hfill := fill_range_getElem? (w0.m_size - k) w0.regionOf k
        (none : Option T) (by omega)
      have hr2 : (if w0.m_size < k then
            construct_range w0.regionOf w0.m_size (k - w0.m_size)
          else if k < w0.m_size then
            destruct_range w0.regionOf k (w0.m_size - k)
          else w0.regionOf)
          = fill_range w0.regionOf k (w0.m_size - k) none := by
        rw [if_neg hgt, if_pos hlt]
        rfl
      rw [hr2] at hres
      have hcells2 : (fill_range w0.regionOf k (w0.m_size - k) none).take k
          = v.cells.take k ++ List.replicate (k - v.m_size) (some default) := by
        have hrep : k - v.m_size = 0 := by omega
        rw [hrep, List.replicate_zero, List.append_nil]
        apply List.ext_getElem?
        intro j
        rw [List.getElem?_take, List.getElem?_take]
        by_cases hj : j < k
        · rw [if_pos hj, if_pos hj, hfill j, if_neg (by omega),
            ← fast_vector.cells_getElem? w0 j (by omega), hc0]
        · rw [if_neg hj, if_neg hj]
      refine ⟨_, hres, ⟨?_, ?_, ?_⟩, rfl, by show k ≤ w0.m_capacity; omega,
        by show v.m_capacity ≤ w0.m_capacity; omega,
        fun he => absurd he hk, ?_⟩
      · show k ≤ w0.m_capacity
        omega
      · show (fill_range w0.regionOf k (w0.m_size - k) none).length
          = w0.m_capacity
        rw [fill_range_length]
        omega
      · show ((fill_range w0.regionOf k (w0.m_size - k) none).take k).all
          Option.isSome = true
        have htake_all : (List.take k v.cells).all Option.isSome = true :=
          List.all_eq_true.mpr fun c hcmem =>
            List.all_eq_true.mp h3 c (List.take_subset _ _ hcmem)
        have hrep_all : (List.replicate (k - v.m_size)
            (some (default : T))).all Option.isSome = true := by
          simp
        rw [hcells2, List.all_append, htake_all, hrep_all]
        rfl
      · exact hcells2

/-! ### The claims -/

/-- C1: for every sequence of `N` values, `push_back` once per value starting
from a default-constructed buffer yields `size() == N`, `capacity() >= N`,
and iterating `begin()..end()` yields exactly those values in insertion
order. -/
theorem claim_C1 (T : Type) (xs : List T) :
    ∃ v, fast_vector.push_back_loop fast_vector.init xs = some v ∧
      v.m_size = xs.length ∧ xs.length ≤ v.m_capacity ∧
      v.cells = xs.map some ∧ v.wf := by
  obtain ⟨w, hw, hwf, hc, hs, -⟩ :=
    fast_vector.push_back_loop_spec xs (fast_vector.wf_init (T := T))
  have h0 : (fast_vector.init : fast_vector T).m_size = 0 := rfl
  refine ⟨w, hw, by omega, ?_, ?_, hwf⟩
  · have := hwf.1
    omega
  · rw [hc]
    show (fast_vector.init : fast_vector T).cells ++ xs.map some = xs.map some
    rfl

/-- C2: `erase(v)` removes exactly the first element equal to `v` (found by
linear scan from the front), shifts all later elements down one slot keeping
their relative order, and decrements the size by one; when no element is
equal, the buffer (size, capacity and all elements) is unchanged. -/
theorem claim_C2 (T : Type) [DecidableEq T] (v : fast_vector T)
    (xs : List T) (a : T) (h : v.wf) (hc : v.cells = xs.map some) :
    (v.erase a).m_capacity = v.m_capacity ∧
    (a ∉ xs → v.erase a = v) ∧
    ∀ ys zs, xs = ys ++ a :: zs → a ∉ ys →
      (v.erase a).cells = (ys ++ zs).map some ∧
      (v.erase a).m_size = v.m_size - 1 ∧ (v.erase a).wf :=
  fast_vector.erase_spec a h hc

/-- C2, witnessed: erasing `1` from the buffer `{1, 2, 1, 3}` removes only
the first `1` and keeps `{2, 1, 3}` in order. -/
theorem claim_C2_witness :
    (fast_vector.erase
        (⟨some [some 1, some 2, some 1, some 3], 4, 4⟩ : fast_vector Nat)
        1).cells = (([] ++ [2, 1, 3] : List Nat)).map some ∧
    (fast_vector.erase
        (⟨some [some 1, some 2, some 1, some 3], 4, 4⟩ : fast_vector Nat)
        1).m_size = 4 - 1 := by
  have h := (claim_C2 Nat
    (⟨some [some 1, some 2, some 1, some 3], 4, 4⟩ : fast_vector Nat)
    [1, 2, 1, 3] 1 (by decide) (by decide)).2.2 [] [2, 1, 3] rfl (by decide)
  exact ⟨h.1, h.2.1⟩

/-- C3: `append(values, count)` never writes outside the allocated region
(every modelled write is bounds-checked, so the result being `some` states
exactly that), ends with `size() == s + count`, `capacity() >= s + count`,
the old elements unchanged and the new ones appended at the tail in
order. -/
theorem claim_C3 (T : Type) (v : fast_vector T) (ys : List T) (h : v.wf) :
    ∃ w, v.append ys = some w ∧ w.wf ∧ w.m_size = v.m_size + ys.length ∧
      v.m_size + ys.length ≤ w.m_capacity ∧
      w.cells = v.cells ++ ys.map some := by
  obtain ⟨w, hw, hwf, hc, hs, hcap⟩ := fast_vector.append_spec ys h
  exact ⟨w, hw, hwf, hs, hcap, hc⟩

/-- C3, witnessed on the spec scenario: appending 3 elements to a buffer of
size 2 and capacity 4 gives `size() == 5` and `capacity() >= 5`. -/
theorem claim_C3_witness :
    ((fast_vector.append
        (⟨some [some 1, some 2, none, none], 2, 4⟩ : fast_vector Nat)
        [7, 8, 9]).map fun w => w.m_size) = some 5 ∧
    ((fast_vector.append
        (⟨some [some 1, some 2, none, none], 2, 4⟩ : fast_vector Nat)
        [7, 8, 9]).map fun w => decide (5 ≤ w.m_capacity)) = some true := by
  obtain ⟨w, hw, -, hs, hcap, -⟩ := claim_C3 Nat
    (⟨some [some 1, some 2, none, none], 2, 4⟩ : fast_vector Nat)
    [7, 8, 9] (by decide)
  rw [hw]
  constructor
  · show some w.m_size = some 5
    rw [hs]
    rfl
  · show some (decide (5 ≤ w.m_capacity)) = some true
    exact congrArg some (decide_eq_true hcap)

/-- C4, refuted: on a buffer of size 1 and capacity 3, `shrink_to_fit()`
reallocates the region to exactly 1 slot but never assigns `m_capacity`, so
`capacity()` still reports 3 (and now overstates the real allocation,
breaking the class invariant); a second call reallocates again and
`capacity()` is still 3, so the claimed `capacity() == size()` fails on both
calls. -/
theorem claim_C4_code_bug :
    (fast_vector.shrink_to_fit
      (⟨some [some 5, none, none], 1, 3⟩ : fast_vector Nat)).m_capacity = 3 ∧
    (fast_vector.shrink_to_fit
      (⟨some [some 5, none, none], 1, 3⟩ : fast_vector Nat)).m_size = 1 ∧
    (fast_vector.shrink_to_fit
      (⟨some [some 5, none, none], 1, 3⟩ : fast_vector Nat)).regionOf.length
      = 1 ∧
    ¬ (fast_vector.shrink_to_fit
      (⟨some [some 5, none, none], 1, 3⟩ : fast_vector Nat)).wf ∧
    (fast_vector.shrink_to_fit (fast_vector.shrink_to_fit
      (⟨some [some 5, none, none], 1, 3⟩ : fast_vector Nat))).m_capacity
      = 3 := by
  decide

/-- C5, refuted: moving out of a buffer of size 2 nulls only the source data
pointer; the source keeps `m_size == 2`, so `size() == 0` fails (for both
move construction and move assignment).  The no-double-destruction half of
the claim does hold: the moved-from source destructs nothing, the
destination destructs each element once. -/
theorem claim_C5_code_bug :
    ((⟨some [some 1, some 2], 2, 2⟩ :
      fast_vector Nat).move_construct.2).m_size = 2 ∧
    ¬ ((⟨some [some 1, some 2], 2, 2⟩ :
      fast_vector Nat).move_construct.2).m_size = 0 ∧
    ((⟨some [some 1, some 2], 2, 2⟩ :
      fast_vector Nat).move_construct.2).dtor_destructs = [] ∧
    ((⟨some [some 1, some 2], 2, 2⟩ :
      fast_vector Nat).move_construct.1).dtor_destructs
      = [some 1, some 2] ∧
    ((fast_vector.move_assign (fast_vector.init : fast_vector Nat)
      (⟨some [some 1, some 2], 2, 2⟩ : fast_vector Nat)).2).m_size = 2 := by
  decide

/-- C6, refuted: move assignment executes `m_capacity = other.m_size`, so a
source of size 1 and capacity 3 leaves the destination with
`capacity() == 1`, not the transferred 3; move construction does transfer
the capacity. -/
theorem claim_C6_code_bug :
    ((fast_vector.move_assign (fast_vector.init : fast_vector Nat)
      (⟨some [some 7, none, none], 1, 3⟩ : fast_vector Nat)).1).m_capacity
      = 1 ∧
    (⟨some [some 7, none, none], 1, 3⟩ : fast_vector Nat).m_capacity = 3 ∧
    ((⟨some [some 7, none, none], 1, 3⟩ :
      fast_vector Nat).move_construct.1).m_capacity = 3 ∧
    ((fast_vector.move_assign (fast_vector.init : fast_vector Nat)
      (⟨some [some 7, none, none], 1, 3⟩ : fast_vector Nat)).1).m_size
      = 1 := by
  decide

/-- C7: copy construction and copy assignment produce a deep element-wise
copy with `size()` equal to the source size and `capacity()` exactly the
source size (slack not preserved); the source is `const` and untouched. -/
theorem claim_C7 (T : Type) (d other : fast_vector T) (h : other.wf) :
    other.copy_construct.wf ∧
    other.copy_construct.cells = other.cells ∧
    other.copy_construct.m_size = other.m_size ∧
    other.copy_construct.m_capacity = other.m_size ∧
    d.copy_assign other = other.copy_construct := by
  obtain ⟨h1, h2, h3⟩ := h
  have hc : other.copy_construct.cells = other.cells := by
    show (realloc_region other.regionOf other.m_size).take other.m_size
      = other.cells
    exact take_realloc_region _ (le_refl _) (by omega)
  refine ⟨⟨le_refl _, ?_, ?_⟩, hc, rfl, rfl, rfl⟩
  · show (realloc_region other.regionOf other.m_size).length = other.m_size
    exact length_realloc_region _ _
  · show (other.copy_construct.cells).all Option.isSome = true
    rw [hc]
    exact h3

/-- C7, witnessed: copying a buffer of size 2 and capacity 3 yields the same
two elements with capacity exactly 2. -/
theorem claim_C7_witness :
    (⟨some [some 3, some 4, none], 2, 3⟩ :
      fast_vector Nat).copy_construct.cells
      = (⟨some [some 3, some 4, none], 2, 3⟩ : fast_vector Nat).cells ∧
    (⟨some [some 3, some 4, none], 2, 3⟩ :
      fast_vector Nat).copy_construct.m_capacity = 2 := by
  have h := claim_C7 Nat fast_vector.init
    (⟨some [some 3, some 4, none], 2, 3⟩ : fast_vector Nat) (by decide)
  exact ⟨h.2.1, h.2.2.2.1⟩

/-- C8: `resize(k)` truncates to the first `k` elements when `k < size()`,
preserves the old elements and default-initializes slots `[size, k)` when
`k > size()` (default-constructible element types), and is a no-op when
`k == size()`. -/
theorem claim_C8 (T : Type) [Inhabited T] (v : fast_vector T) (k : Nat)
    (h : v.wf) :
    ∃ w, v.resize k = some w ∧ w.wf ∧ w.m_size = k ∧ k ≤ w.m_capacity ∧
      (k = v.m_size → w = v) ∧
      w.cells = v.cells.take k
        ++ List.replicate (k - v.m_size) (some default) := by
  obtain ⟨w, hw, hwf, hs, hk, -, hnoop, hc⟩ := fast_vector.resize_spec k h
  exact ⟨w, hw, hwf, hs, hk, hnoop, hc⟩

/-- C8, witnessed: resizing a buffer holding `{1, 2}` up to 5 keeps `{1, 2}`
and default-initializes three new slots. -/
theorem claim_C8_witness :
    ((fast_vector.resize
      (⟨some [some 1, some 2, none], 2, 3⟩ : fast_vector Nat) 5).map
        fun w => (w.m_size, w.cells))
      = some (5, [some 1, some 2, some 0, some 0, some 0]) := by
  obtain ⟨w, hw, -, hs, -, -, hc⟩ := claim_C8 Nat
    (⟨some [some 1, some 2, none], 2, 3⟩ : fast_vector Nat) 5 (by decide)
  rw [hw]
  show some (w.m_size, w.cells)
    = some (5, [some 1, some 2, some 0, some 0, some 0])
  rw [hs, hc]
  rfl

/-- C9: `at(pos)` raises the catchable range error exactly when
`pos >= size()`, and otherwise returns the element stored at index `pos`
(which is an initialized cell); the buffer is read, never written. -/
theorem claim_C9 (T : Type) (v : fast_vector T) (pos : Nat) (h : v.wf) :
    ((v.at? pos = Except.error "Position is out of range") ↔
      v.m_size ≤ pos) ∧
    (pos < v.m_size → v.at? pos = Except.ok (v.cells.getD pos none) ∧
      (v.cells.getD pos none).isSome = true) := by
  have hcl : v.cells.length = v.m_size := fast_vector.cells_length h
  obtain ⟨h1, h2, h3⟩ := h
  constructor
  · constructor
    · intro he
      by_cases hge : v.m_size ≤ pos
      · exact hge
      · rw [fast_vector.at?, if_neg hge] at he
        exact Except.noConfusion he
    · intro hge
      rw [fast_vector.at?, if_pos hge]
  · intro hlt
    have hge : ¬ (v.m_size ≤ pos) := by omega
    constructor
    · rw [fast_vector.at?, if_neg hge]
      congr 1
      rw [List.getD_eq_getElem?_getD, fast_vector.cells_getElem? v pos hlt]
      rfl
    · have hp : pos < v.cells.length := by omega
      obtain ⟨c, hcel⟩ : ∃ c, v.cells[pos]? = some c :=
        ⟨_, List.getElem?_eq_getElem hp⟩
      have hmem : c ∈ v.cells := List.getElem?_mem hcel
      rw [List.getD_eq_getElem?_getD, hcel]
      exact List.all_eq_true.mp h3 c hmem

/-- C9, witnessed: on a buffer of size 2, `at(5)` raises the range error and
`at(0)` returns the first element. -/
theorem claim_C9_witness :
    ((⟨some [some 7, some 8, none], 2, 3⟩ : fast_vector Nat).at? 5
      = Except.error "Position is out of range") ∧
    (⟨some [some 7, some 8, none], 2, 3⟩ : fast_vector Nat).at? 0
      = Except.ok (some 7) := by
  have h1 := (claim_C9 Nat
    (⟨some [some 7, some 8, none], 2, 3⟩ : fast_vector Nat) 5
    (by decide)).1.mpr (by decide)
  have h2 := ((claim_C9 Nat
    (⟨some [some 7, some 8, none], 2, 3⟩ : fast_vector Nat) 0
    (by decide)).2 (by decide)).1
  refine ⟨h1, ?_⟩
  rw [h2]
  rfl

/-- C10: every internal `reserve` call satisfies the asserted precondition
`new_cap > capacity()`: the growth argument `capacity() * grow_factor + 1`
always does, and `resize` only calls `reserve(count)` under
`count > capacity()`; consequently `push_back`, `emplace_back` and `resize`
never fault on a well-formed buffer (the `isSome` results state that no
modelled assertion or out-of-region write fires). -/
theorem claim_C10 (T : Type) [Inhabited T] (v : fast_vector T) (x : T)
    (k : Nat) (h : v.wf) :
    (v.reserve (v.m_capacity * fast_vector.grow_factor + 1)).isSome = true ∧
    (v.push_back x).isSome = true ∧ (v.emplace_back x).isSome = true ∧
    (v.resize k).isSome = true := by
  refine ⟨?_, ?_, ?_, ?_⟩
  · rw [fast_vector.reserve,
      if_pos (by show v.m_capacity < v.m_capacity * 2 + 1; omega)]
    rfl
  · obtain ⟨w, hw, -, -, -, -⟩ := fast_vector.push_back_spec x h
    rw [hw]
    rfl
  · rw [fast_vector.emplace_back_eq_push_back]
    obtain ⟨w, hw, -, -, -, -⟩ := fast_vector.push_back_spec x h
    rw [hw]
    rfl
  · obtain ⟨w, hw, -, -, -, -, -, -⟩ := fast_vector.resize_spec k h
    rw [hw]
    rfl

/-- C10, witnessed at a buffer of size 1 and capacity 2. -/
theorem claim_C10_witness :
    ((⟨some [some 1, none], 1, 2⟩ : fast_vector Nat).reserve
      ((⟨some [some 1, none], 1, 2⟩ : fast_vector Nat).m_capacity
        * fast_vector.grow_factor + 1)).isSome = true ∧
    ((⟨some [some 1, none], 1, 2⟩ : fast_vector Nat).push_back 5).isSome
      = true ∧
    ((⟨some [some 1, none], 1, 2⟩ : fast_vector Nat).emplace_back 5).isSome
      = true ∧
    ((⟨some [some 1, none], 1, 2⟩ : fast_vector Nat).resize 4).isSome
      = true :=
  claim_C10 Nat (⟨some [some 1, none], 1, 2⟩ : fast_vector Nat) 5 4
    (by decide)
